import Mathlib

/-!
Verification of the `MutOrderedSet` data structure from `src/ordered_set.rs`:
a hash index (`HashMap<u64, *mut Node<T>>`) combined with an intrusive doubly
linked list of heap-allocated nodes.

Shallow embedding conventions:
* a raw pointer `*mut Node<T>` becomes `Option Nat` (a node id, `none` = null);
* the global allocator's memory becomes an explicit heap `Nat → Option (Node V)`;
  the field `fresh` of the set is the next never-used node id, modelling that the
  allocator returns a fresh address for each `Node::new`;
* the `HashMap<u64, *mut Node<T>>` becomes an association list `List (Nat × Nat)`
  from 64-bit digests to node ids (digests are modelled as `Nat`);
* the set's `BuildHasher` (fixed at construction time) becomes a parameter
  `hash : V → Nat`;
* the pointer-chasing loops of the iterators become fuel-based recursion; the
  fuel `s.fresh` bounds the number of live nodes, since every live node id is
  below `fresh`.
-/

namespace MutableSet

/-- `Node<T>` from `ordered_set.rs`: a stored value and the two sibling links. -/
structure Node (V : Type) where
  value : V
  next : Option Nat
  prev : Option Nat
deriving DecidableEq, Repr

/-- The allocator's memory: which node ids are currently allocated, and their
contents. -/
def Heap (V : Type) := Nat → Option (Node V)

/-- Write the node stored at id `i` (a store through a `*mut Node<T>`). -/
def hupd {V : Type} (h : Heap V) (i : Nat) (n : Node V) : Heap V :=
  fun j => if j = i then some n else h j

/-- Deallocate the node at id `i` (`Node::drop` / `Box::from_raw`). -/
def hfree {V : Type} (h : Heap V) (i : Nat) : Heap V :=
  fun j => if j = i then none else h j

/-- `HashMap::get` on the digest-to-node index. -/
def alistGet : List (Nat × Nat) → Nat → Option Nat
  | [], _ => none
  | (k', v) :: rest, k => if k' = k then some v else alistGet rest k

/-- `HashMap::insert` on the digest-to-node index: replaces the entry when the
key is present, otherwise adds one. -/
def alistInsert : List (Nat × Nat) → Nat → Nat → List (Nat × Nat)
  | [], k, v => [(k, v)]
  | (k', v') :: rest, k, v =>
      if k' = k then (k, v) :: rest else (k', v') :: alistInsert rest k v

/-- `HashMap::remove` on the digest-to-node index (the removed mapping, when
present, is returned by `alistGet` before the call). -/
def alistRemove : List (Nat × Nat) → Nat → List (Nat × Nat)
  | [], _ => []
  | (k', v') :: rest, k =>
      if k' = k then alistRemove rest k else (k', v') :: alistRemove rest k

/-- `MutOrderedSet<T, S>` from `ordered_set.rs`: the hash index, the endpoint
pointers, plus the explicit allocator state (`heap`, `fresh`). -/
structure MutOrderedSet (V : Type) where
  map : List (Nat × Nat)
  heap : Heap V
  head : Option Nat
  tail : Option Nat
  fresh : Nat

namespace MutOrderedSet

variable {V : Type}

/-- `MutOrderedSet::new()`. -/
def new (V : Type) : MutOrderedSet V :=
  { map := [], heap := fun _ => none, head := none, tail := none, fresh := 0 }

/-- `MutOrderedSet::get_key`: hash the value with the set's hasher. -/
def get_key (hash : V → Nat) (_s : MutOrderedSet V) (value : V) : Nat :=
  hash value

/-- `MutOrderedSet::attach`: append the node `curr` at the tail of the list. -/
def attach (s : MutOrderedSet V) (curr : Nat) : MutOrderedSet V :=
  -- (*curr).prev = self.tail; if !self.tail.is_null() { (*self.tail).next = curr; }
  let h1 : Heap V :=
    match s.heap curr with
    | some n => hupd s.heap curr { n with prev := s.tail }
    | none => s.heap
  let h2 : Heap V :=
    match s.tail with
    | some t =>
        match h1 t with
        | some tn => hupd h1 t { tn with next := some curr }
        | none => h1
    | none => h1
  -- if self.head.is_null() { self.head = curr; }  self.tail = curr;
  { s with
      heap := h2
      head := if s.head = none then some curr else s.head
      tail := some curr }

/-- `MutOrderedSet::detach`: unlink the node `curr` from the list, repairing the
neighbour links and the endpoints. -/
def detach (s : MutOrderedSet V) (curr : Nat) : MutOrderedSet V :=
  match s.heap curr with
  | none => s
  | some n =>
      let h1 : Heap V :=
        match n.prev with
        | some p =>
            match s.heap p with
            | some pn => hupd s.heap p { pn with next := n.next }
            | none => s.heap
        | none => s.heap
      let h2 : Heap V :=
        match n.next with
        | some q =>
            match h1 q with
            | some qn => hupd h1 q { qn with prev := n.prev }
            | none => h1
        | none => h1
      { s with
          heap := h2
          head := if s.head = some curr then n.next else s.head
          tail := if s.tail = some curr then n.prev else s.tail }

/-- `MutOrderedSet::insert`: returns the new state together with the node id
behind the returned `&mut T`. -/
def insert (hash : V → Nat) (s : MutOrderedSet V) (value : V) :
    MutOrderedSet V × Nat :=
  let key := get_key hash s value
  match alistGet s.map key with
  | some curr =>
      match s.heap curr with
      | some n => ({ s with heap := hupd s.heap curr { n with value := value } }, curr)
      | none => (s, curr)  -- dereferencing a dangling map entry; unreachable when well formed
  | none =>
      let curr := s.fresh
      let s1 : MutOrderedSet V :=
        { s with
            heap := hupd s.heap curr { value := value, next := none, prev := none }
            fresh := s.fresh + 1
            map := alistInsert s.map key curr }
      (attach s1 curr, curr)

/-- `MutOrderedSet::remove`: returns the boolean result together with the new
state. -/
def remove (hash : V → Nat) (s : MutOrderedSet V) (value : V) :
    Bool × MutOrderedSet V :=
  let key := get_key hash s value
  let m' := alistRemove s.map key
  match alistGet s.map key with
  | some curr =>
      let s1 := detach { s with map := m' } curr
      (true, { s1 with heap := hfree s1.heap curr })
  | none => (false, { s with map := m' })

/-- `MutOrderedSet::extend`: insert each value of the sequence in order. -/
def extend (hash : V → Nat) (s : MutOrderedSet V) : List V → MutOrderedSet V
  | [] => s
  | v :: vs => extend hash (insert hash s v).1 vs

/-- `MutOrderedSet::len`: the size of the hash index. -/
def len (s : MutOrderedSet V) : Nat :=
  s.map.length

/-- `Iter::next` iterated to exhaustion: follow `next` links from the cursor,
yielding the stored values.  The fuel argument bounds the number of steps. -/
def iterAux (h : Heap V) : Option Nat → Nat → List V
  | none, _ => []
  | some _, 0 => []
  | some i, fuel + 1 =>
      match h i with
      | none => []
      | some n => n.value :: iterAux h n.next fuel

/-- `MutOrderedSet::iter` collected into a list: a full read-only traversal from
the head. -/
def iter (s : MutOrderedSet V) : List V :=
  iterAux s.heap s.head s.fresh

/-- The node ids visited by a traversal from the cursor (the sequence of values
of the `custer` pointer). -/
def chainAux (h : Heap V) : Option Nat → Nat → List Nat
  | none, _ => []
  | some _, 0 => []
  | some i, fuel + 1 =>
      match h i with
      | none => []
      | some n => i :: chainAux h n.next fuel

/-- The list of node ids from head to tail. -/
def chain (s : MutOrderedSet V) : List Nat :=
  chainAux s.heap s.head s.fresh

/-- `MutOrderedSet::iter_mut` collected into a list of node ids: each `&mut T`
yielded by `IterMut::next` is modelled by the id of the node whose `value`
field it points into. -/
def iter_mut (s : MutOrderedSet V) : List Nat :=
  chainAux s.heap s.head s.fresh

/-- A store through one of the `&mut T` references yielded by `iter_mut`:
overwrite the `value` field of node `i`, touching nothing else. -/
def writeRef (s : MutOrderedSet V) (i : Nat) (v : V) : MutOrderedSet V :=
  match s.heap i with
  | some n => { s with heap := hupd s.heap i { n with value := v } }
  | none => s

end MutOrderedSet

/-- The state of the consuming iterator `IntoIter<T>`: the `custer` pointer,
together with the allocator memory it walks over (nodes are deallocated as they
are yielded). -/
structure IntoIter (V : Type) where
  custer : Option Nat
  heap : Heap V

/-- `MutOrderedSet::into_iter`. -/
def MutOrderedSet.into_iter {V : Type} (s : MutOrderedSet V) : IntoIter V :=
  { custer := s.head, heap := s.heap }

/-- `IntoIter::next`: take ownership of the current node's value, deallocate the
node (`Box::from_raw` dropping), advance the cursor. -/
def IntoIter.next {V : Type} (it : IntoIter V) : Option (V × IntoIter V) :=
  match it.custer with
  | some i =>
      match it.heap i with
      | some n => some (n.value, { custer := n.next, heap := hfree it.heap i })
      | none => none  -- reading freed memory; unreachable when well formed
  | none => none

/-- Drive `IntoIter::next` to exhaustion, collecting the yielded values and the
final iterator state. -/
def IntoIter.consume {V : Type} : IntoIter V → Nat → List V × IntoIter V
  | it, 0 => ([], it)
  | it, fuel + 1 =>
      match it.next with
      | some (v, it') =>
          let r := it'.consume fuel
          (v :: r.1, r.2)
      | none => ([], it)

/-! ## The list-shape invariant

`ChainSeg h p cur l ep ec` states that starting at cursor `cur`, where the
previously visited node (if any) is `p`, the traversal visits exactly the node
ids of `l` in order, every visited node's `prev` link points at its
predecessor, and the traversal is left with "last visited" `ep` and cursor
`ec`.  A well-formed set has a complete segment from `none`/`head` down to
`tail`/`none`. -/

variable {V : Type}

inductive ChainSeg (h : Heap V) :
    Option Nat → Option Nat → List Nat → Option Nat → Option Nat → Prop
  | nil (p cur : Option Nat) : ChainSeg h p cur [] p cur
  | cons (p : Option Nat) (i : Nat) (n : Node V) (l : List Nat)
      (ep ec : Option Nat) :
      h i = some n → n.prev = p → ChainSeg h (some i) n.next l ep ec →
      ChainSeg h p (some i) (i :: l) ep ec

/-- The representation invariant of `MutOrderedSet`, relative to the list `l`
of live node ids in head-to-tail order. -/
structure WFl (s : MutOrderedSet V) (l : List Nat) : Prop where
  seg : ChainSeg s.heap none s.head l s.tail none
  nodup : l.Nodup
  bound : ∀ i ∈ l, i < s.fresh
  keys_nodup : (s.map.map Prod.fst).Nodup
  vals_perm : (s.map.map Prod.snd).Perm l

/-- A set is well formed when some id list realises the invariant. -/
def WF (s : MutOrderedSet V) : Prop :=
  ∃ l, WFl s l

/-- The values stored at a list of node ids. -/
def valuesOf (h : Heap V) (l : List Nat) : List V :=
  l.filterMap fun i => (h i).map Node.value

theorem ChainSeg.congr {h h' : Heap V} {p cur : Option Nat} {l : List Nat}
    {ep ec : Option Nat} (hc : ChainSeg h p cur l ep ec)
    (hag : ∀ i ∈ l, h' i = h i) : ChainSeg h' p cur l ep ec := by
  induction hc with
  | nil p cur => exact ChainSeg.nil p cur
  | cons p i n l ep ec hi hp _ ih =>
      exact ChainSeg.cons p i n l ep ec
        (by rw [hag i (List.mem_cons_self i l)]; exact hi) hp
        (ih fun j hj => hag j (List.mem_cons_of_mem i hj))

theorem ChainSeg.append {h : Heap V} {p c p1 c1 p2 c2 : Option Nat}
    {l1 l2 : List Nat} (h1 : ChainSeg h p c l1 p1 c1)
    (h2 : ChainSeg h p1 c1 l2 p2 c2) : ChainSeg h p c (l1 ++ l2) p2 c2 := by
  induction h1 with
  | nil p cur => exact h2
  | cons p i n l ep ec hi hp _ ih =>
      exact ChainSeg.cons p i n (l ++ l2) p2 c2 hi hp (ih h2)

theorem ChainSeg.split {h : Heap V} {p c p2 c2 : Option Nat}
    {l1 l2 : List Nat} (hc : ChainSeg h p c (l1 ++ l2) p2 c2) :
    ∃ p1 c1, ChainSeg h p c l1 p1 c1 ∧ ChainSeg h p1 c1 l2 p2 c2 := by
  induction l1 generalizing p c with
  | nil => exact ⟨p, c, ChainSeg.nil p c, hc⟩
  | cons i l1 ih =>
      cases hc with
      | cons _ _ n _ _ _ hi hp hrest =>
          obtain ⟨p1, c1, ha, hb⟩ := ih hrest
          exact ⟨p1, c1, ChainSeg.cons p i n l1 p1 c1 hi hp ha, hb⟩

theorem ChainSeg.allSome {h : Heap V} {p cur : Option Nat} {l : List Nat}
    {ep ec : Option Nat} (hc : ChainSeg h p cur l ep ec) :
    ∀ i ∈ l, ∃ n, h i = some n := by
  induction hc with
  | nil _ _ => intro i hi; cases hi
  | cons p i n l ep ec hi _ _ ih =>
      intro j hj
      rcases List.mem_cons.mp hj with rfl | hj
      · exact ⟨n, hi⟩
      · exact ih j hj

/-- A complete segment (ending cursor `none`) is what a sufficiently fuelled
traversal computes. -/
theorem chainAux_eq_of_seg' {h : Heap V} {p cur : Option Nat} {l : List Nat}
    {ep ec : Option Nat} (hc : ChainSeg h p cur l ep ec) (hend : ec = none) :
    ∀ fuel, l.length ≤ fuel → MutOrderedSet.chainAux h cur fuel = l := by
  induction hc with
  | nil p cur =>
      subst hend
      intro fuel _
      cases fuel <;> rfl
  | cons p i n l ep ec hi hp _ ih =>
      intro fuel hf
      cases fuel with
      | zero => exact absurd hf (by simp)
      | succ fuel =>
          simp only [MutOrderedSet.chainAux, hi]
          exact congrArg (i :: ·) (ih hend fuel (Nat.le_of_succ_le_succ hf))

theorem chainAux_eq_of_seg {h : Heap V} {p cur : Option Nat} {l : List Nat}
    {ep : Option Nat} (hc : ChainSeg h p cur l ep none) :
    ∀ fuel, l.length ≤ fuel → MutOrderedSet.chainAux h cur fuel = l :=
  chainAux_eq_of_seg' hc rfl

theorem iterAux_eq_of_seg' {h : Heap V} {p cur : Option Nat} {l : List Nat}
    {ep ec : Option Nat} (hc : ChainSeg h p cur l ep ec) (hend : ec = none) :
    ∀ fuel, l.length ≤ fuel → MutOrderedSet.iterAux h cur fuel = valuesOf h l := by
  induction hc with
  | nil p cur =>
      subst hend
      intro fuel _
      cases fuel <;> rfl
  | cons p i n l ep ec hi hp _ ih =>
      intro fuel hf
      cases fuel with
      | zero => exact absurd hf (by simp)
      | succ fuel =>
          simp only [MutOrderedSet.iterAux, hi, valuesOf, List.filterMap_cons,
            Option.map_some']
          exact congrArg (n.value :: ·) (ih hend fuel (Nat.le_of_succ_le_succ hf))

theorem iterAux_eq_of_seg {h : Heap V} {p cur : Option Nat} {l : List Nat}
    {ep : Option Nat} (hc : ChainSeg h p cur l ep none) :
    ∀ fuel, l.length ≤ fuel → MutOrderedSet.iterAux h cur fuel = valuesOf h l :=
  iterAux_eq_of_seg' hc rfl

theorem WFl.length_le_fresh {s : MutOrderedSet V} {l : List Nat}
    (hw : WFl s l) : l.length ≤ s.fresh := by
  have hsub : l ⊆ List.range s.fresh := fun i hi =>
    List.mem_range.mpr (hw.bound i hi)
  calc l.length ≤ (List.range s.fresh).length :=
        (List.subperm_of_subset hw.nodup hsub).length_le
    _ = s.fresh := List.length_range s.fresh

theorem WFl.chain_eq {s : MutOrderedSet V} {l : List Nat} (hw : WFl s l) :
    s.chain = l :=
  chainAux_eq_of_seg hw.seg s.fresh hw.length_le_fresh

theorem WFl.iter_eq {s : MutOrderedSet V} {l : List Nat} (hw : WFl s l) :
    s.iter = valuesOf s.heap l :=
  iterAux_eq_of_seg hw.seg s.fresh hw.length_le_fresh

/-- Overwriting only the `value` field of any allocated node preserves the
list shape. -/
theorem ChainSeg.update_value {h : Heap V} {p cur : Option Nat} {l : List Nat}
    {ep ec : Option Nat} (hc : ChainSeg h p cur l ep ec) {j : Nat}
    {m : Node V} (hj : h j = some m) (v : V) :
    ChainSeg (hupd h j { m with value := v }) p cur l ep ec := by
  induction hc with
  | nil p cur => exact ChainSeg.nil p cur
  | cons p i n l ep ec hi hp _ ih =>
      by_cases hij : i = j
      · subst hij
        have hnm : n = m := by rw [hi] at hj; exact Option.some.inj hj
        subst hnm
        exact ChainSeg.cons p i { n with value := v } l ep ec
          (by simp [hupd]) hp ih
      · exact ChainSeg.cons p i n l ep ec (by simp [hupd, hij, hi]) hp ih

theorem hupd_same {h : Heap V} {i : Nat} {n : Node V} : hupd h i n i = some n := by
  simp [hupd]

theorem hupd_other {h : Heap V} {i j : Nat} {n : Node V} (hij : j ≠ i) :
    hupd h i n j = h j := by
  simp [hupd, hij]

theorem hfree_same {h : Heap V} {i : Nat} : hfree h i i = none := by
  simp [hfree]

theorem hfree_other {h : Heap V} {i j : Nat} (hij : j ≠ i) : hfree h i j = h j := by
  simp [hfree, hij]

theorem alistGet_eq_none {m : List (Nat × Nat)} {k : Nat} :
    alistGet m k = none ↔ k ∉ m.map Prod.fst := by
  induction m with
  | nil => simp [alistGet]
  | cons e rest ih =>
      obtain ⟨k', v'⟩ := e
      by_cases hk : k' = k
      · subst hk
        simp [alistGet]
      · simp [alistGet, hk, ih, Ne.symm hk]

theorem alistGet_mem {m : List (Nat × Nat)} {k curr : Nat}
    (hk : alistGet m k = some curr) : (k, curr) ∈ m := by
  induction m with
  | nil => simp [alistGet] at hk
  | cons e rest ih =>
      obtain ⟨k', v'⟩ := e
      by_cases hke : k' = k
      · subst hke
        have hv : some v' = some curr := by rw [← hk]; simp [alistGet]
        cases hv
        exact List.mem_cons_self _ _
      · simp only [alistGet, if_neg hke] at hk
        exact List.mem_cons_of_mem _ (ih hk)

theorem alistInsert_not_mem {m : List (Nat × Nat)} {k : Nat} (v : Nat)
    (hk : k ∉ m.map Prod.fst) : alistInsert m k v = m ++ [(k, v)] := by
  induction m with
  | nil => rfl
  | cons e rest ih =>
      obtain ⟨k', v'⟩ := e
      simp only [List.map_cons, List.mem_cons] at hk
      push_neg at hk
      simp [alistInsert, Ne.symm hk.1, ih hk.2]

theorem alistRemove_not_mem {m : List (Nat × Nat)} {k : Nat}
    (hk : k ∉ m.map Prod.fst) : alistRemove m k = m := by
  induction m with
  | nil => rfl
  | cons e rest ih =>
      obtain ⟨k', v'⟩ := e
      simp only [List.map_cons, List.mem_cons] at hk
      push_neg at hk
      simp [alistRemove, Ne.symm hk.1, ih hk.2]

theorem alistGet_alistRemove_self {m : List (Nat × Nat)} {k : Nat} :
    alistGet (alistRemove m k) k = none := by
  induction m with
  | nil => rfl
  | cons e rest ih =>
      obtain ⟨k', v'⟩ := e
      by_cases hk : k' = k
      · simp [alistRemove, hk, ih]
      · simp [alistRemove, alistGet, hk, ih]

theorem alistRemove_keys_sublist (m : List (Nat × Nat)) (k : Nat) :
    ((alistRemove m k).map Prod.fst).Sublist (m.map Prod.fst) := by
  induction m with
  | nil => exact List.Sublist.refl _
  | cons e rest ih =>
      obtain ⟨k', v'⟩ := e
      by_cases hk : k' = k
      · simp only [alistRemove, if_pos hk, List.map_cons]
        exact ih.cons k'
      · simp only [alistRemove, if_neg hk, List.map_cons]
        exact ih.cons₂ k'

/-- With distinct keys, removing a present key splits the index into the
removed entry and the rest. -/
theorem alist_perm_of_get {m : List (Nat × Nat)} {k curr : Nat}
    (hnd : (m.map Prod.fst).Nodup) (hk : alistGet m k = some curr) :
    m.Perm ((k, curr) :: alistRemove m k) := by
  induction m with
  | nil => simp [alistGet] at hk
  | cons e rest ih =>
      obtain ⟨k', v'⟩ := e
      simp only [List.map_cons, List.nodup_cons] at hnd
      by_cases hke : k' = k
      · subst hke
        have hv : some v' = some curr := by rw [← hk]; simp [alistGet]
        cases hv
        rw [alistRemove, if_pos rfl, alistRemove_not_mem hnd.1]
      · simp only [alistGet, if_neg hke] at hk
        rw [alistRemove, if_neg hke]
        exact (List.Perm.cons _ (ih hnd.2 hk)).trans (List.Perm.swap _ _ _)

/-- A segment ends either trivially or at a genuine last node whose `next`
link is the final cursor. -/
theorem ChainSeg.ep_cases {h : Heap V} {p c ep ec : Option Nat} {l : List Nat}
    (hc : ChainSeg h p c l ep ec) :
    (l = [] ∧ ep = p ∧ ec = c) ∨
    (∃ l0 t nt, l = l0 ++ [t] ∧ ep = some t ∧ h t = some nt ∧ nt.next = ec) := by
  induction hc with
  | nil p cur => exact Or.inl ⟨rfl, rfl, rfl⟩
  | cons p i n l ep ec hi hp _ ih =>
      rcases ih with ⟨rfl, rfl, rfl⟩ | ⟨l0, t, nt, rfl, rfl, ht, hnt⟩
      · exact Or.inr ⟨[], i, n, rfl, rfl, hi, rfl⟩
      · exact Or.inr ⟨i :: l0, t, nt, rfl, rfl, ht, hnt⟩

theorem WFl_new : WFl (MutOrderedSet.new V) [] :=
  { seg := ChainSeg.nil none none
    nodup := List.nodup_nil
    bound := fun i hi => absurd hi (List.not_mem_nil i)
    keys_nodup := List.nodup_nil
    vals_perm := List.Perm.refl [] }

theorem valuesOf_congr {h h' : Heap V} {l : List Nat}
    (hag : ∀ i ∈ l, h' i = h i) : valuesOf h' l = valuesOf h l := by
  induction l with
  | nil => rfl
  | cons i rest ih =>
      simp only [valuesOf, List.filterMap_cons] at ih ⊢
      rw [hag i (List.mem_cons_self i rest),
        ih fun j hj => hag j (List.mem_cons_of_mem i hj)]

theorem valuesOf_append (h : Heap V) (l1 l2 : List Nat) :
    valuesOf h (l1 ++ l2) = valuesOf h l1 ++ valuesOf h l2 :=
  List.filterMap_append l1 l2 _

theorem valuesOf_length {h : Heap V} {l : List Nat}
    (hs : ∀ i ∈ l, ∃ n, h i = some n) : (valuesOf h l).length = l.length := by
  induction l with
  | nil => rfl
  | cons i rest ih =>
      obtain ⟨n, hn⟩ := hs i (List.mem_cons_self i rest)
      simp only [valuesOf, List.filterMap_cons, hn, Option.map_some',
        List.length_cons]
      rw [← valuesOf]
      rw [ih fun j hj => hs j (List.mem_cons_of_mem i hj)]

theorem valuesOf_cons_some {h : Heap V} {i : Nat} {n : Node V}
    (rest : List Nat) (hn : h i = some n) :
    valuesOf h (i :: rest) = n.value :: valuesOf h rest := by
  simp [valuesOf, List.filterMap_cons, hn]

theorem valuesOf_update_value {h : Heap V} {l : List Nat} (hnd : l.Nodup)
    {curr : Nat} {n : Node V} (hcurr : curr ∈ l) (hn : h curr = some n)
    (hs : ∀ i ∈ l, ∃ m, h i = some m) (v : V) :
    valuesOf (hupd h curr { n with value := v }) l =
      (valuesOf h l).set (l.indexOf curr) v := by
  induction l with
  | nil => cases hcurr
  | cons i rest ih =>
      simp only [List.nodup_cons] at hnd
      rcases List.mem_cons.mp hcurr with rfl | hcurr'
      · have hcg : ∀ j ∈ rest, hupd h curr { n with value := v } j = h j := by
          intro j hj
          exact hupd_other fun hji => hnd.1 (hji ▸ hj)
        rw [valuesOf_cons_some rest hupd_same,
          valuesOf_cons_some rest hn, List.indexOf_cons_self,
          valuesOf_congr hcg]
        rfl
      · obtain ⟨m, hm⟩ := hs i (List.mem_cons_self i rest)
        have hic : i ≠ curr := fun hic => hnd.1 (hic ▸ hcurr')
        have hm' : hupd h curr { n with value := v } i = some m := by
          rw [hupd_other hic]; exact hm
        rw [valuesOf_cons_some rest hm', valuesOf_cons_some rest hm,
          List.indexOf_cons_ne _ hic,
          ih hnd.2 hcurr' fun j hj => hs j (List.mem_cons_of_mem i hj)]
        rfl

theorem chainSeg_nil_inv_aux {h : Heap V} {p c ep ec : Option Nat}
    {l : List Nat} (hc : ChainSeg h p c l ep ec) :
    l = [] → ep = p ∧ ec = c := by
  induction hc with
  | nil _ _ => exact fun _ => ⟨rfl, rfl⟩
  | cons p i n l ep ec _ _ _ _ =>
      exact fun hl => absurd hl (List.cons_ne_nil i l)

theorem ChainSeg.nil_inv {h : Heap V} {p c ep ec : Option Nat}
    (hc : ChainSeg h p c [] ep ec) : ep = p ∧ ec = c :=
  chainSeg_nil_inv_aux hc rfl

theorem chainSeg_cons_inv_aux {h : Heap V} {p c ep ec : Option Nat}
    {l' : List Nat} (hc : ChainSeg h p c l' ep ec) :
    ∀ i rest, l' = i :: rest →
      ∃ n, c = some i ∧ h i = some n ∧ n.prev = p ∧
        ChainSeg h (some i) n.next rest ep ec := by
  induction hc with
  | nil _ _ =>
      intro i rest hl
      exact absurd hl.symm (List.cons_ne_nil i rest)
  | cons p j n l ep ec hj hp hrec _ =>
      intro i rest hl
      injection hl with h1 h2
      subst h1
      subst h2
      exact ⟨n, rfl, hj, hp, hrec⟩

theorem ChainSeg.cons_inv {h : Heap V} {p c ep ec : Option Nat}
    {i : Nat} {rest : List Nat} (hc : ChainSeg h p c (i :: rest) ep ec) :
    ∃ n, c = some i ∧ h i = some n ∧ n.prev = p ∧
      ChainSeg h (some i) n.next rest ep ec :=
  chainSeg_cons_inv_aux hc i rest rfl

theorem valuesOf_congr_value {h h' : Heap V} {l : List Nat}
    (hag : ∀ i ∈ l, (h' i).map Node.value = (h i).map Node.value) :
    valuesOf h' l = valuesOf h l := by
  induction l with
  | nil => rfl
  | cons i rest ih =>
      simp only [valuesOf, List.filterMap_cons] at ih ⊢
      rw [hag i (List.mem_cons_self i rest),
        ih fun j hj => hag j (List.mem_cons_of_mem i hj)]

/-- The full specification of `attach`: appending a freshly allocated,
null-linked node at the tail extends the chain by that node. -/
theorem attach_spec {s : MutOrderedSet V} {l : List Nat} {j : Nat} {v : V}
    (seg : ChainSeg s.heap none s.head l s.tail none)
    (hj : s.heap j = some { value := v, next := none, prev := none })
    (hjl : j ∉ l) (hnd : l.Nodup) :
    ChainSeg (s.attach j).heap none (s.attach j).head (l ++ [j])
        (s.attach j).tail none ∧
    (∀ i ∈ l, ((s.attach j).heap i).map Node.value =
        (s.heap i).map Node.value) ∧
    ((s.attach j).heap j).map Node.value = some v ∧
    (s.attach j).map = s.map ∧ (s.attach j).fresh = s.fresh := by
  rcases List.eq_nil_or_concat' l with rfl | ⟨l0, t, rfl⟩
  · -- the list was empty: the new node becomes both head and tail
    obtain ⟨htl', hhd'⟩ := seg.nil_inv
    have heq : s.attach j =
        { s with
            heap := hupd s.heap j { value := v, next := none, prev := none }
            head := some j
            tail := some j } := by
      simp only [MutOrderedSet.attach, hj, htl', ← hhd', if_true]
    rw [heq]
    refine ⟨?_, ?_, ?_, rfl, rfl⟩
    · exact ChainSeg.cons none j _ [] (some j) none hupd_same rfl
        (ChainSeg.nil (some j) none)
    · intro i hi
      exact absurd hi (List.not_mem_nil i)
    · show Option.map Node.value
        (hupd s.heap j { value := v, next := none, prev := none } j) = some v
      rw [hupd_same]
      rfl
  · -- the list was nonempty: link the old tail to the new node
    simp only [List.nodup_append, List.nodup_cons, List.not_mem_nil,
      not_false_iff, List.nodup_nil, and_true, List.disjoint_singleton] at hnd
    have hndt : t ∉ l0 := hnd.2.2
    have htj : t ≠ j := fun htj =>
      hjl (htj ▸ List.mem_append_right l0 (List.mem_cons_self t []))
    -- split the old chain at its last element
    obtain ⟨pz, cz, seg0, segT⟩ := seg.split
    obtain ⟨nt, hcz, ht, hprev, hinner⟩ := segT.cons_inv
    obtain ⟨htl, _⟩ := hinner.nil_inv
    have hheadne : ¬s.head = none := by
      cases hx : l0 ++ [t] with
      | nil => exact absurd hx (by simp)
      | cons x rest =>
          obtain ⟨nx, hcx, _, _, _⟩ := (hx ▸ seg).cons_inv
          rw [hcx]
          exact Option.some_ne_none x
    -- compute the state produced by attach
    have h1j : hupd s.heap j { value := v, next := none, prev := some t } t =
        some nt := by rw [hupd_other htj]; exact ht
    have heq : s.attach j =
        { s with
            heap :=
              hupd (hupd s.heap j { value := v, next := none, prev := some t })
                t { nt with next := some j }
            head := s.head
            tail := some j } := by
      simp only [MutOrderedSet.attach, hj, htl, h1j, if_neg hheadne]
    rw [heq]
    set h2 : Heap V :=
      hupd (hupd s.heap j { value := v, next := none, prev := some t }) t
        { nt with next := some j } with hh2
    have hread : ∀ i, i ≠ j → i ≠ t → h2 i = s.heap i := by
      intro i hij hit
      rw [hh2, hupd_other hit, hupd_other hij]
    have hreadj : h2 j = some { value := v, next := none, prev := some t } := by
      rw [hh2, hupd_other (Ne.symm htj), hupd_same]
    have hreadt : h2 t = some { nt with next := some j } := hupd_same
    refine ⟨?_, ?_, ?_, rfl, rfl⟩
    · -- the new chain is the old one with `j` appended
      have seg0' : ChainSeg h2 none s.head l0 pz cz := by
        refine seg0.congr ?_
        intro i hi
        exact hread i (fun hij => hjl (hij ▸ List.mem_append_left [t] hi))
          (fun hit => hndt (hit ▸ hi))
      have segT' : ChainSeg h2 pz cz ([t] ++ [j]) (some j) none := by
        rw [hcz]
        refine ChainSeg.cons pz t { nt with next := some j } [j] (some j) none
          hreadt hprev ?_
        exact ChainSeg.cons (some t) j
          { value := v, next := none, prev := some t } [] (some j) none
          hreadj rfl (ChainSeg.nil (some j) none)
      have hfull := seg0'.append segT'
      rw [← List.append_assoc] at hfull
      exact hfull
    · -- stored values of the old nodes are untouched
      intro i hi
      show Option.map Node.value (h2 i) = Option.map Node.value (s.heap i)
      by_cases hit : i = t
      · subst hit
        rw [hreadt, ht]
        rfl
      · have hij : i ≠ j := fun hij => hjl (hij ▸ hi)
        rw [hread i hij hit]
    · show Option.map Node.value (h2 j) = some v
      rw [hreadj]
      rfl

theorem WFl.mem_of_get {s : MutOrderedSet V} {l : List Nat} {k curr : Nat}
    (hw : WFl s l) (hk : alistGet s.map k = some curr) : curr ∈ l :=
  hw.vals_perm.mem_iff.mp (List.mem_map_of_mem Prod.snd (alistGet_mem hk))

theorem WFl.heap_some {s : MutOrderedSet V} {l : List Nat} {curr : Nat}
    (hw : WFl s l) (hcurr : curr ∈ l) : ∃ n, s.heap curr = some n :=
  hw.seg.allSome curr hcurr

theorem WFl.len_eq {s : MutOrderedSet V} {l : List Nat} (hw : WFl s l) :
    s.len = l.length := by
  rw [MutOrderedSet.len, ← List.length_map s.map Prod.snd,
    hw.vals_perm.length_eq]

/-- `insert` on a key already in the index: the stored value of the existing
node is overwritten in place and its id is returned; index, links, endpoints
are untouched. -/
theorem insert_spec_mem (hash : V → Nat) {s : MutOrderedSet V} {l : List Nat}
    {v : V} {curr : Nat} {n : Node V} (hw : WFl s l)
    (hkey : alistGet s.map (hash v) = some curr)
    (hn : s.heap curr = some n) :
    MutOrderedSet.insert hash s v =
      ({ s with heap := hupd s.heap curr { n with value := v } }, curr) ∧
    WFl { s with heap := hupd s.heap curr { n with value := v } } l := by
  constructor
  · simp only [MutOrderedSet.insert, MutOrderedSet.get_key, hkey, hn]
  · exact
      { seg := hw.seg.update_value hn v
        nodup := hw.nodup
        bound := hw.bound
        keys_nodup := hw.keys_nodup
        vals_perm := hw.vals_perm }

/-- `insert` on a fresh key: a node is allocated, registered in the index and
attached at the tail. -/
theorem insert_spec_new (hash : V → Nat) {s : MutOrderedSet V} {l : List Nat}
    {v : V} (hw : WFl s l) (hkey : alistGet s.map (hash v) = none) :
    (MutOrderedSet.insert hash s v).2 = s.fresh ∧
    (MutOrderedSet.insert hash s v).1.map = s.map ++ [(hash v, s.fresh)] ∧
    (MutOrderedSet.insert hash s v).1.fresh = s.fresh + 1 ∧
    WFl (MutOrderedSet.insert hash s v).1 (l ++ [s.fresh]) ∧
    valuesOf (MutOrderedSet.insert hash s v).1.heap (l ++ [s.fresh]) =
      valuesOf s.heap l ++ [v] := by
  have hkey' : hash v ∉ s.map.map Prod.fst := alistGet_eq_none.mp hkey
  have hjl : s.fresh ∉ l := fun hmem => lt_irrefl _ (hw.bound _ hmem)
  set j := s.fresh with hjdef
  set nd : Node V := { value := v, next := none, prev := none } with hnd
  set s1 : MutOrderedSet V :=
    { s with
        heap := hupd s.heap j nd
        fresh := s.fresh + 1
        map := alistInsert s.map (hash v) j } with hs1
  have heq : MutOrderedSet.insert hash s v = (s1.attach j, j) := by
    simp only [MutOrderedSet.insert, MutOrderedSet.get_key, hkey]
  have hseg1 : ChainSeg s1.heap none s1.head l s1.tail none := by
    refine hw.seg.congr ?_
    intro i hi
    have hij : i ≠ j := by rintro rfl; exact hjl hi
    exact hupd_other hij
  have hj1 : s1.heap j = some nd := hupd_same
  obtain ⟨hseg2, hvals, hvj, hmap2, hfresh2⟩ :=
    attach_spec hseg1 hj1 hjl hw.nodup
  have hmap1 : s1.map = s.map ++ [(hash v, j)] := alistInsert_not_mem j hkey'
  have hvals_s : ∀ i ∈ l, ((s1.attach j).heap i).map Node.value =
      (s.heap i).map Node.value := by
    intro i hi
    rw [hvals i hi]
    show (hupd s.heap j nd i).map Node.value = (s.heap i).map Node.value
    have hij : i ≠ j := by rintro rfl; exact hjl hi
    rw [hupd_other hij]
  rw [heq]
  refine ⟨rfl, ?_, ?_, ?_, ?_⟩
  · rw [hmap2, hmap1]
  · rw [hfresh2]
  · refine
      { seg := hseg2
        nodup := ?_
        bound := ?_
        keys_nodup := ?_
        vals_perm := ?_ }
    · simp only [List.nodup_append, List.nodup_cons, List.not_mem_nil,
        not_false_iff, List.nodup_nil, and_true, List.disjoint_singleton]
      exact ⟨hw.nodup, trivial, hjl⟩
    · intro i hi
      rw [hfresh2]
      show i < s.fresh + 1
      rcases List.mem_append.mp hi with hi | hi
      · exact Nat.lt_succ_of_lt (hw.bound i hi)
      · rcases List.mem_singleton.mp hi with rfl
        exact Nat.lt_succ_self _
    · rw [hmap2, hmap1]
      simp only [List.map_append, List.map_cons, List.map_nil]
      simp only [List.nodup_append, List.nodup_cons, List.not_mem_nil,
        not_false_iff, List.nodup_nil, and_true, List.disjoint_singleton]
      exact ⟨hw.keys_nodup, trivial, hkey'⟩
    · rw [hmap2, hmap1]
      simp only [List.map_append, List.map_cons, List.map_nil]
      exact hw.vals_perm.append_right [j]
  · rw [valuesOf_append]
    have h1 : valuesOf (s1.attach j).heap l = valuesOf s.heap l :=
      valuesOf_congr_value hvals_s
    have h2 : valuesOf (s1.attach j).heap [j] = [v] := by
      simp only [valuesOf, List.filterMap_cons, List.filterMap_nil, hvj]
    rw [h1, h2]

/-- The full specification of `detach`: unlinking a chain node removes exactly
it from the chain, repairing the neighbour links and the endpoints. -/
theorem detach_spec {s : MutOrderedSet V} {A B : List Nat} {curr : Nat}
    (seg : ChainSeg s.heap none s.head (A ++ curr :: B) s.tail none)
    (hnd : (A ++ curr :: B).Nodup) :
    ChainSeg (s.detach curr).heap none (s.detach curr).head (A ++ B)
        (s.detach curr).tail none ∧
    (∀ i ∈ A ++ B, ((s.detach curr).heap i).map Node.value =
        (s.heap i).map Node.value) ∧
    (s.detach curr).map = s.map ∧ (s.detach curr).fresh = s.fresh := by
  have hnd' := hnd
  simp only [List.nodup_append, List.nodup_cons] at hnd'
  obtain ⟨hndA, ⟨hcB, hndB⟩, hdisj⟩ := hnd'
  have hcA : curr ∉ A := fun hc => hdisj hc (List.mem_cons_self curr B)
  obtain ⟨pA, cA, segA, segM⟩ := seg.split
  obtain ⟨n, hcA', hn, hprev, segB⟩ := segM.cons_inv
  rcases List.eq_nil_or_concat' A with rfl | ⟨A0, p, rfl⟩
  · -- curr is the head node
    obtain ⟨hpA, hhd⟩ := segA.nil_inv
    have hhead : s.head = some curr := by rw [← hhd, hcA']
    cases B with
    | nil =>
        -- curr is the only node: the set becomes empty
        obtain ⟨htl, hnx⟩ := segB.nil_inv
        have heq : s.detach curr =
            { s with heap := s.heap, head := none, tail := none } := by
          simp only [MutOrderedSet.detach, hn, hprev, hpA, ← hnx, hhead, htl,
            if_pos rfl, if_true]
        rw [heq]
        exact ⟨ChainSeg.nil none none, fun i hi => rfl, rfl, rfl⟩
    | cons q B' =>
        -- curr is the head, with a successor q that becomes the new head
        obtain ⟨qn, hnx, hq, hqprev, segB'⟩ := segB.cons_inv
        have hqB : q ∉ B' := (List.nodup_cons.mp hndB).1
        have hqc : q ≠ curr := fun hqc => hcB (hqc ▸ List.mem_cons_self q B')
        have htailne : ¬s.tail = some curr := by
          rcases segB'.ep_cases with ⟨hB', htl, _⟩ | ⟨B0, tb, ntb, hB', htl, _, _⟩
          · rw [htl]
            simp only [Option.some.injEq]
            exact hqc
          · rw [htl]
            simp only [Option.some.injEq]
            intro htc
            exact hcB (htc ▸ List.mem_cons_of_mem q (hB' ▸ List.mem_append_right B0 (List.mem_cons_self tb [])))
        have heq : s.detach curr =
            { s with
                heap := hupd s.heap q { qn with prev := none }
                head := some q
                tail := s.tail } := by
          simp only [MutOrderedSet.detach, hn, hprev, hpA, hnx, hq, hhead,
            if_pos rfl, if_true, if_neg htailne]
        rw [heq]
        refine ⟨?_, ?_, rfl, rfl⟩
        · refine ChainSeg.cons none q { qn with prev := none } B' s.tail none
            hupd_same rfl ?_
          refine segB'.congr ?_
          intro i hi
          have hiq : i ≠ q := fun hiq => hqB (hiq ▸ hi)
          exact hupd_other hiq
        · intro i hi
          show (hupd s.heap q { qn with prev := none } i).map Node.value =
            (s.heap i).map Node.value
          by_cases hiq : i = q
          · subst hiq
            rw [hupd_same, hq]
            rfl
          · rw [hupd_other hiq]
  · -- curr has a predecessor p
    have hpA0 : p ∉ A0 := by
      simp only [List.nodup_append, List.nodup_cons] at hndA
      exact fun hp => hndA.2.2 hp (List.mem_singleton_self p)
    have hpc : p ≠ curr :=
      fun hpc => hcA (hpc ▸ List.mem_append_right A0 (List.mem_cons_self p []))
    obtain ⟨pz, cz, segA0, segP⟩ := segA.split
    obtain ⟨pn, hcz, hp, hpprev, innerP⟩ := segP.cons_inv
    obtain ⟨hpA, hcA''⟩ := innerP.nil_inv
    have hpnext : pn.next = some curr := by rw [← hcA'', hcA']
    -- the head is the first element of A, hence not curr
    have hheadne : ¬s.head = some curr := by
      cases hA : A0 ++ [p] with
      | nil => exact absurd hA (by simp)
      | cons x rest =>
          have hseg' : ChainSeg s.heap none s.head
              (x :: (rest ++ curr :: B)) s.tail none := by
            have := seg
            rw [hA] at this
            simpa using this
          obtain ⟨nx, hcx, _, _, _⟩ := hseg'.cons_inv
          rw [hcx]
          simp only [Option.some.injEq]
          intro hxc
          have hx : x ∈ A0 ++ [p] := hA ▸ List.mem_cons_self x rest
          exact hcA (hxc ▸ hx)
    cases B with
    | nil =>
        -- curr is the tail: p becomes the new tail
        obtain ⟨htl, hnx⟩ := segB.nil_inv
        have heq : s.detach curr =
            { s with
                heap := hupd s.heap p { pn with next := none }
                head := s.head
                tail := some p } := by
          simp only [MutOrderedSet.detach, hn, hprev, hpA, hp, ← hnx, htl,
            if_pos rfl, if_true, if_neg hheadne]
        rw [heq]
        refine ⟨?_, ?_, rfl, rfl⟩
        · have segA0' : ChainSeg (hupd s.heap p { pn with next := none }) none
              s.head A0 pz cz := by
            refine segA0.congr ?_
            intro i hi
            have hip : i ≠ p := fun hip => hpA0 (hip ▸ hi)
            exact hupd_other hip
          have segP' : ChainSeg (hupd s.heap p { pn with next := none }) pz cz
              [p] (some p) none := by
            rw [hcz]
            exact ChainSeg.cons pz p { pn with next := none } [] (some p) none
              hupd_same hpprev (ChainSeg.nil (some p) none)
          have hfull := segA0'.append segP'
          simpa using hfull
        · intro i hi
          show (hupd s.heap p { pn with next := none } i).map Node.value =
            (s.heap i).map Node.value
          by_cases hip : i = p
          · subst hip
            rw [hupd_same, hp]
            rfl
          · rw [hupd_other hip]
    | cons q B' =>
        -- curr is interior: p and q become adjacent
        obtain ⟨qn, hnx, hq, hqprev, segB'⟩ := segB.cons_inv
        have hqB : q ∉ B' := (List.nodup_cons.mp hndB).1
        have hqc : q ≠ curr := fun hqc => hcB (hqc ▸ List.mem_cons_self q B')
        have hqp : q ≠ p := by
          intro hqp
          refine hdisj ?_ (List.mem_cons_of_mem curr (List.mem_cons_self q B'))
          rw [hqp]
          exact List.mem_append_right A0 (List.mem_cons_self p [])
        have htailne : ¬s.tail = some curr := by
          rcases segB'.ep_cases with ⟨hB', htl, _⟩ | ⟨B0, tb, ntb, hB', htl, _, _⟩
          · rw [htl]
            simp only [Option.some.injEq]
            exact hqc
          · rw [htl]
            simp only [Option.some.injEq]
            intro htc
            exact hcB (htc ▸ List.mem_cons_of_mem q (hB' ▸ List.mem_append_right B0 (List.mem_cons_self tb [])))
        have hq1 : hupd s.heap p { pn with next := some q } q = some qn := by
          rw [hupd_other hqp]
          exact hq
        have heq : s.detach curr =
            { s with
                heap := hupd (hupd s.heap p { pn with next := some q }) q
                  { qn with prev := some p }
                head := s.head
                tail := s.tail } := by
          simp only [MutOrderedSet.detach, hn, hprev, hpA, hp, hnx, hq1,
            if_neg hheadne, if_neg htailne]
        rw [heq]
        set h2 : Heap V := hupd (hupd s.heap p { pn with next := some q }) q
          { qn with prev := some p } with hh2
        have hreadp : h2 p = some { pn with next := some q } := by
          rw [hh2, hupd_other (Ne.symm hqp), hupd_same]
        have hreadq : h2 q = some { qn with prev := some p } := hupd_same
        have hread : ∀ i, i ≠ p → i ≠ q → h2 i = s.heap i := by
          intro i hip hiq
          rw [hh2, hupd_other hiq, hupd_other hip]
        refine ⟨?_, ?_, rfl, rfl⟩
        · have segA0' : ChainSeg h2 none s.head A0 pz cz := by
            refine segA0.congr ?_
            intro i hi
            have hip : i ≠ p := fun hip => hpA0 (hip ▸ hi)
            have hiq : i ≠ q := by
              intro hiq
              exact hdisj (List.mem_append_left [p] hi)
                (by rw [hiq]; exact List.mem_cons_of_mem curr (List.mem_cons_self q B'))
            exact hread i hip hiq
          have segP' : ChainSeg h2 pz cz [p] (some p) (some q) := by
            rw [hcz]
            exact ChainSeg.cons pz p { pn with next := some q } [] (some p)
              (some q) hreadp hpprev (ChainSeg.nil (some p) (some q))
          have segQ' : ChainSeg h2 (some p) (some q) (q :: B') s.tail none := by
            refine ChainSeg.cons (some p) q { qn with prev := some p } B'
              s.tail none hreadq rfl ?_
            refine segB'.congr ?_
            intro i hi
            have hiq : i ≠ q := fun hiq => hqB (hiq ▸ hi)
            have hip : i ≠ p := by
              intro hip
              exact hdisj (List.mem_append_right A0 (List.mem_cons_self p []))
                (List.mem_cons_of_mem curr
                  (List.mem_cons_of_mem q (hip ▸ hi)))
            exact hread i hip hiq
          have hfull := segA0'.append (segP'.append segQ')
          rw [← List.append_assoc] at hfull
          exact hfull
        · intro i hi
          show (h2 i).map Node.value = (s.heap i).map Node.value
          by_cases hip : i = p
          · subst hip
            rw [hreadp, hp]
            rfl
          · by_cases hiq : i = q
            · subst hiq
              rw [hreadq, hq]
              rfl
            · rw [hread i hip hiq]

/-- `remove` on an absent key: it returns false and the state is unchanged. -/
theorem remove_spec_absent (hash : V → Nat) {s : MutOrderedSet V} {v : V}
    (hkey : alistGet s.map (hash v) = none) :
    MutOrderedSet.remove hash s v = (false, s) := by
  have hrm : alistRemove s.map (hash v) = s.map :=
    alistRemove_not_mem (alistGet_eq_none.mp hkey)
  simp only [MutOrderedSet.remove, MutOrderedSet.get_key, hkey, hrm]

/-- `remove` on a present key: it returns true, deallocates the node, deletes
the index entry, and the rest of the chain survives in order. -/
theorem remove_spec_mem (hash : V → Nat) {s : MutOrderedSet V} {v : V}
    {curr : Nat} {A B : List Nat} (hw : WFl s (A ++ curr :: B))
    (hkey : alistGet s.map (hash v) = some curr) :
    (MutOrderedSet.remove hash s v).1 = true ∧
    WFl (MutOrderedSet.remove hash s v).2 (A ++ B) ∧
    (MutOrderedSet.remove hash s v).2.map = alistRemove s.map (hash v) ∧
    (MutOrderedSet.remove hash s v).2.fresh = s.fresh ∧
    (MutOrderedSet.remove hash s v).2.heap curr = none ∧
    alistGet (MutOrderedSet.remove hash s v).2.map (hash v) = none ∧
    valuesOf (MutOrderedSet.remove hash s v).2.heap (A ++ B) =
      valuesOf s.heap A ++ valuesOf s.heap B := by
  set sM : MutOrderedSet V := { s with map := alistRemove s.map (hash v) }
    with hsM
  have heq : MutOrderedSet.remove hash s v =
      (true, { sM.detach curr with heap := hfree (sM.detach curr).heap curr }) := by
    simp only [MutOrderedSet.remove, MutOrderedSet.get_key, hkey]
  have hsegM : ChainSeg sM.heap none sM.head (A ++ curr :: B) sM.tail none :=
    hw.seg
  obtain ⟨seg', hvals', hmap', hfresh'⟩ := detach_spec hsegM hw.nodup
  have hcAB : curr ∉ A ++ B := by
    intro hc
    rcases List.mem_append.mp hc with hc | hc
    · exact List.disjoint_of_nodup_append hw.nodup hc
        (List.mem_cons_self curr B)
    · have hndB : (curr :: B).Nodup :=
        hw.nodup.sublist (List.sublist_append_right A (curr :: B))
      exact (List.nodup_cons.mp hndB).1 hc
  have hsub : ∀ i ∈ A ++ B, i ∈ A ++ curr :: B := by
    intro i hi
    rcases List.mem_append.mp hi with hi | hi
    · exact List.mem_append_left _ hi
    · exact List.mem_append_right _ (List.mem_cons_of_mem curr hi)
  have hfreeag : ∀ i ∈ A ++ B,
      hfree (sM.detach curr).heap curr i = (sM.detach curr).heap i := by
    intro i hi
    have hic : i ≠ curr := fun hic => hcAB (hic ▸ hi)
    exact hfree_other hic
  rw [heq]
  refine ⟨rfl, ?_, hmap', hfresh', hfree_same, ?_, ?_⟩
  · refine
      { seg := seg'.congr hfreeag
        nodup := ?_
        bound := ?_
        keys_nodup := ?_
        vals_perm := ?_ }
    · exact hw.nodup.sublist
        ((List.sublist_cons_self curr B).append_left A)
    · intro i hi
      show i < (sM.detach curr).fresh
      rw [hfresh']
      exact hw.bound i (hsub i hi)
    · rw [hmap']
      exact hw.keys_nodup.sublist (alistRemove_keys_sublist s.map (hash v))
    · rw [hmap']
      have hperm1 : (s.map.map Prod.snd).Perm
          (curr :: (alistRemove s.map (hash v)).map Prod.snd) := by
        have hperm := List.Perm.map Prod.snd
          (alist_perm_of_get hw.keys_nodup hkey)
        simpa using hperm
      have hperm2 : (curr :: (alistRemove s.map (hash v)).map Prod.snd).Perm
          (A ++ curr :: B) := hperm1.symm.trans hw.vals_perm
      have hperm3 : (A ++ curr :: B).Perm (curr :: (A ++ B)) :=
        List.perm_middle
      exact (hperm2.trans hperm3).cons_inv
  · show alistGet (sM.detach curr).map (hash v) = none
    rw [hmap']
    exact alistGet_alistRemove_self
  · show valuesOf (hfree (sM.detach curr).heap curr) (A ++ B) =
      valuesOf s.heap A ++ valuesOf s.heap B
    rw [valuesOf_congr hfreeag, valuesOf_congr_value hvals',
      valuesOf_append]

/-- A store through an `iter_mut` reference only changes the stored value. -/
theorem writeRef_spec {s : MutOrderedSet V} {l : List Nat} {i : Nat}
    {n : Node V} (hw : WFl s l) (hn : s.heap i = some n) (v : V) :
    WFl (s.writeRef i v) l ∧ (s.writeRef i v).map = s.map ∧
    (s.writeRef i v).heap i = some { n with value := v } ∧
    (∀ j, j ≠ i → (s.writeRef i v).heap j = s.heap j) ∧
    (s.writeRef i v).fresh = s.fresh := by
  have heq : s.writeRef i v =
      { s with heap := hupd s.heap i { n with value := v } } := by
    simp only [MutOrderedSet.writeRef, hn]
  rw [heq]
  refine ⟨?_, rfl, hupd_same, ?_, rfl⟩
  · exact
      { seg := hw.seg.update_value hn v
        nodup := hw.nodup
        bound := hw.bound
        keys_nodup := hw.keys_nodup
        vals_perm := hw.vals_perm }
  · intro j hj
    exact hupd_other hj

/-- Draining `IntoIter` yields the stored values in chain order and ends with a
null cursor. -/
theorem consume_spec :
    ∀ (l : List Nat) (h : Heap V) (p cur ep : Option Nat),
      ChainSeg h p cur l ep none → l.Nodup →
      ∀ fuel, l.length ≤ fuel →
        (IntoIter.consume { custer := cur, heap := h } fuel).1 = valuesOf h l ∧
        (IntoIter.consume { custer := cur, heap := h } fuel).2.custer = none := by
  intro l
  induction l with
  | nil =>
      intro h p cur ep hc _ fuel _
      obtain ⟨hep, hec⟩ := hc.nil_inv
      rw [← hec]
      cases fuel with
      | zero => exact ⟨rfl, rfl⟩
      | succ fuel => exact ⟨rfl, rfl⟩
  | cons i rest ih =>
      intro h p cur ep hc hnd fuel hf
      obtain ⟨n, hcur, hn, hprev, hrest⟩ := hc.cons_inv
      subst hcur
      cases fuel with
      | zero => exact absurd hf (by simp)
      | succ fuel =>
          have hnext : IntoIter.next { custer := some i, heap := h } =
              some (n.value, { custer := n.next, heap := hfree h i }) := by
            simp [IntoIter.next, hn]
          have hag : ∀ j ∈ rest, hfree h i j = h j := by
            intro j hj
            have hij : j ≠ i := fun hij =>
              (List.nodup_cons.mp hnd).1 (hij ▸ hj)
            exact hfree_other hij
          have hrest' : ChainSeg (hfree h i) (some i) n.next rest ep none :=
            hrest.congr hag
          obtain ⟨h1, h2⟩ := ih (hfree h i) (some i) n.next ep hrest'
            (List.nodup_cons.mp hnd).2 fuel (Nat.le_of_succ_le_succ hf)
          simp only [IntoIter.consume, hnext]
          constructor
          · rw [valuesOf_cons_some rest hn, h1, valuesOf_congr hag]
          · exact h2

/-- The states reachable from the empty set by the mutating API. -/
inductive Reachable (hash : V → Nat) : MutOrderedSet V → Prop
  | base : Reachable hash (MutOrderedSet.new V)
  | ins (s : MutOrderedSet V) (v : V) : Reachable hash s →
      Reachable hash (MutOrderedSet.insert hash s v).1
  | rem (s : MutOrderedSet V) (v : V) : Reachable hash s →
      Reachable hash (MutOrderedSet.remove hash s v).2
  | ext (s : MutOrderedSet V) (vs : List V) : Reachable hash s →
      Reachable hash (MutOrderedSet.extend hash s vs)

theorem wf_insert (hash : V → Nat) {s : MutOrderedSet V} (hw : WF s) (v : V) :
    WF (MutOrderedSet.insert hash s v).1 := by
  obtain ⟨l, hw⟩ := hw
  cases hkey : alistGet s.map (hash v) with
  | some curr =>
      obtain ⟨n, hn⟩ := hw.heap_some (hw.mem_of_get hkey)
      obtain ⟨heq, hwf⟩ := insert_spec_mem hash hw hkey hn
      rw [heq]
      exact ⟨l, hwf⟩
  | none =>
      obtain ⟨_, _, _, hwf, _⟩ := insert_spec_new hash hw hkey
      exact ⟨_, hwf⟩

theorem wf_remove (hash : V → Nat) {s : MutOrderedSet V} (hw : WF s) (v : V) :
    WF (MutOrderedSet.remove hash s v).2 := by
  obtain ⟨l, hw⟩ := hw
  cases hkey : alistGet s.map (hash v) with
  | some curr =>
      obtain ⟨A, B, hsplit⟩ := List.append_of_mem (hw.mem_of_get hkey)
      subst hsplit
      obtain ⟨_, hwf, _⟩ := remove_spec_mem hash hw hkey
      exact ⟨_, hwf⟩
  | none =>
      rw [remove_spec_absent hash hkey]
      exact ⟨l, hw⟩

theorem wf_extend (hash : V → Nat) {s : MutOrderedSet V} (hw : WF s)
    (vs : List V) : WF (MutOrderedSet.extend hash s vs) := by
  induction vs generalizing s with
  | nil => exact hw
  | cons v vs ih => exact ih (wf_insert hash hw v)

theorem reachable_wf {hash : V → Nat} {s : MutOrderedSet V}
    (hr : Reachable hash s) : WF s := by
  induction hr with
  | base => exact ⟨[], WFl_new⟩
  | ins s v _ ih => exact wf_insert hash ih v
  | rem s v _ ih => exact wf_remove hash ih v
  | ext s vs _ ih => exact wf_extend hash ih vs


theorem chainSeg_prev_closed {h : Heap V} {p cur : Option Nat} {l : List Nat}
    {ep ec : Option Nat} (hc : ChainSeg h p cur l ep ec)
    (hp : ∀ x, p = some x → ∃ m, h x = some m ∧ m.next = cur) :
    ∀ i n j, i ∈ l → h i = some n → n.prev = some j →
      ∃ m, h j = some m ∧ m.next = some i := by
  induction hc with
  | nil _ _ =>
      intro i n j hi _ _
      exact absurd hi (List.not_mem_nil i)
  | cons p i0 n0 l ep ec hi0 hprev0 hrec ih =>
      intro i n j hi hn hpj
      rcases List.mem_cons.mp hi with rfl | hi
      · have hnn : n = n0 := by
          rw [hi0] at hn
          exact (Option.some.inj hn).symm
        subst hnn
        exact hp j (by rw [← hprev0, hpj])
      · refine ih ?_ i n j hi hn hpj
        intro x hx
        injection hx with hx
        subst hx
        exact ⟨n0, hi0, rfl⟩

theorem chainSeg_next_closed {h : Heap V} {p cur : Option Nat} {l : List Nat}
    {ep ec : Option Nat} (hc : ChainSeg h p cur l ep ec) (hend : ec = none) :
    ∀ i n j, i ∈ l → h i = some n → n.next = some j →
      ∃ m, h j = some m ∧ m.prev = some i := by
  induction hc with
  | nil _ _ =>
      intro i n j hi _ _
      exact absurd hi (List.not_mem_nil i)
  | cons p i0 n0 l ep ec hi0 hprev0 hrec ih =>
      intro i n j hi hn hnj
      rcases List.mem_cons.mp hi with rfl | hi
      · have hnn : n = n0 := by
          rw [hi0] at hn
          exact (Option.some.inj hn).symm
        subst hnn
        rw [hnj] at hrec
        cases l with
        | nil =>
            obtain ⟨_, hec⟩ := hrec.nil_inv
            rw [hend] at hec
            cases hec
        | cons b rest =>
            obtain ⟨m, hb, hm, hmprev, _⟩ := hrec.cons_inv
            injection hb with hb
            subst hb
            exact ⟨m, hm, hmprev⟩
      · exact ih hend i n j hi hn hnj

/-- The doubly-linked-list shape invariant as the spec states it: neighbour
links are mutually inverse on the chain, the head node has no `prev`, the tail
node has no `next`, and the endpoints are null exactly on the empty set. -/
def StrictlyLinked (s : MutOrderedSet V) : Prop :=
  (∀ i, i ∈ s.chain → ∀ n j, s.heap i = some n → n.prev = some j →
      ∃ m, s.heap j = some m ∧ m.next = some i) ∧
  (∀ i, i ∈ s.chain → ∀ n j, s.heap i = some n → n.next = some j →
      ∃ m, s.heap j = some m ∧ m.prev = some i) ∧
  (∀ i, s.head = some i → ∃ n, s.heap i = some n ∧ n.prev = none) ∧
  (∀ i, s.tail = some i → ∃ n, s.heap i = some n ∧ n.next = none) ∧
  (s.head = none ↔ s.len = 0) ∧
  (s.tail = none ↔ s.len = 0)

theorem wfl_strictlyLinked {s : MutOrderedSet V} {l : List Nat}
    (hw : WFl s l) : StrictlyLinked s := by
  have hchain : s.chain = l := hw.chain_eq
  have hlen : s.len = l.length := hw.len_eq
  refine ⟨?_, ?_, ?_, ?_, ?_, ?_⟩
  · intro i hi
    rw [hchain] at hi
    intro n j hn hpj
    refine chainSeg_prev_closed hw.seg ?_ i n j hi hn hpj
    intro x hx
    cases hx
  · intro i hi
    rw [hchain] at hi
    intro n j hn hnj
    exact chainSeg_next_closed hw.seg rfl i n j hi hn hnj
  · intro i hhead
    cases l with
    | nil =>
        obtain ⟨_, hec⟩ := hw.seg.nil_inv
        rw [hhead] at hec
        cases hec
    | cons a rest =>
        obtain ⟨n, hc, hn, hprev, _⟩ := hw.seg.cons_inv
        rw [hhead] at hc
        injection hc with hc
        subst hc
        exact ⟨n, hn, hprev⟩
  · intro i htail
    rcases hw.seg.ep_cases with ⟨_, hep, _⟩ | ⟨l0, t, nt, _, hep, ht, hnt⟩
    · rw [htail] at hep
      cases hep
    · rw [htail] at hep
      injection hep with hep
      subst hep
      exact ⟨nt, ht, hnt⟩
  · constructor
    · intro hhead
      cases l with
      | nil => rw [hlen]; rfl
      | cons a rest =>
          obtain ⟨n, hc, _, _, _⟩ := hw.seg.cons_inv
          rw [hhead] at hc
          cases hc
    · intro hzero
      have hl : l = [] := by
        rw [hlen] at hzero
        exact List.length_eq_zero.mp hzero
      subst hl
      obtain ⟨_, hec⟩ := hw.seg.nil_inv
      exact hec.symm
  · constructor
    · intro htail
      rcases hw.seg.ep_cases with ⟨hl, _, _⟩ | ⟨l0, t, nt, _, hep, _, _⟩
      · subst hl
        rw [hlen]
        rfl
      · rw [htail] at hep
        cases hep
    · intro hzero
      have hl : l = [] := by
        rw [hlen] at hzero
        exact List.length_eq_zero.mp hzero
      subst hl
      obtain ⟨hep, _⟩ := hw.seg.nil_inv
      exact hep

theorem alistGet_append_of_none {m : List (Nat × Nat)} {k j : Nat}
    (hm : alistGet m k = none) : alistGet (m ++ [(k, j)]) k = some j := by
  induction m with
  | nil => simp [alistGet]
  | cons e rest ih =>
      obtain ⟨k0, v0⟩ := e
      by_cases hk : k0 = k
      · subst hk
        rw [show alistGet ((k0, v0) :: rest) k0 = some v0 from by
          simp [alistGet]] at hm
        cases hm
      · simp only [alistGet, if_neg hk] at hm ⊢
        exact ih hm

theorem remove_fst_false (hash : V → Nat) {s : MutOrderedSet V} {v : V}
    (hkey : alistGet s.map (hash v) = none) :
    (MutOrderedSet.remove hash s v).1 = false := by
  rw [remove_spec_absent hash hkey]

/-- `extend` over values with pairwise-distinct, fresh keys appends the values
in order. -/
theorem extend_fresh_spec (hash : V → Nat) :
    ∀ (vs : List V) (s : MutOrderedSet V) (l : List Nat), WFl s l →
      (∀ v ∈ vs, alistGet s.map (hash v) = none) → (vs.map hash).Nodup →
      ∃ l', WFl (MutOrderedSet.extend hash s vs) l' ∧
        (MutOrderedSet.extend hash s vs).iter = s.iter ++ vs ∧
        (MutOrderedSet.extend hash s vs).map.map Prod.fst =
          s.map.map Prod.fst ++ vs.map hash := by
  intro vs
  induction vs with
  | nil =>
      intro s l hw _ _
      exact ⟨l, hw, by simp [MutOrderedSet.extend], by simp [MutOrderedSet.extend]⟩
  | cons v vs ih =>
      intro s l hw habs hnd
      simp only [List.map_cons, List.nodup_cons] at hnd
      obtain ⟨_, hmap, _, hwf', hvals⟩ :=
        insert_spec_new hash hw (habs v (List.mem_cons_self v vs))
      have hiter1 : (MutOrderedSet.insert hash s v).1.iter = s.iter ++ [v] := by
        rw [hwf'.iter_eq, hvals, hw.iter_eq]
      have hkeys1 : (MutOrderedSet.insert hash s v).1.map.map Prod.fst =
          s.map.map Prod.fst ++ [hash v] := by
        rw [hmap]
        simp
      have habs' : ∀ w ∈ vs,
          alistGet (MutOrderedSet.insert hash s v).1.map (hash w) = none := by
        intro w hwmem
        rw [alistGet_eq_none, hkeys1]
        simp only [List.mem_append, List.mem_singleton]
        push_neg
        refine ⟨alistGet_eq_none.mp (habs w (List.mem_cons_of_mem v hwmem)), ?_⟩
        intro hww
        exact hnd.1 (hww ▸ List.mem_map_of_mem hash hwmem)
      obtain ⟨l', hwf2, hiter2, hkeys2⟩ :=
        ih (MutOrderedSet.insert hash s v).1 (l ++ [s.fresh]) hwf' habs' hnd.2
      refine ⟨l', hwf2, ?_, ?_⟩
      · show (MutOrderedSet.extend hash (MutOrderedSet.insert hash s v).1 vs).iter =
          s.iter ++ v :: vs
        rw [hiter2, hiter1]
        simp
      · show (MutOrderedSet.extend hash (MutOrderedSet.insert hash s v).1 vs).map.map Prod.fst =
          s.map.map Prod.fst ++ (hash v :: vs.map hash)
        rw [hkeys2, hkeys1]
        simp

/-- `extend` is literally the left fold of `insert`. -/
theorem extend_eq_foldl (hash : V → Nat) (s : MutOrderedSet V) (vs : List V) :
    MutOrderedSet.extend hash s vs =
      vs.foldl (fun t w => (MutOrderedSet.insert hash t w).1) s := by
  induction vs generalizing s with
  | nil => rfl
  | cons v vs ih => exact ih (MutOrderedSet.insert hash s v).1


/-! ## Concrete states used to instantiate the theorems -/

def idHash : Nat → Nat := fun v => v

def modHash : Nat → Nat := fun v => v % 4

/-- A concrete three-element set, the state reached by inserting 1, 5, 2 (in
that order) with the identity hasher. -/
def S3 : MutOrderedSet Nat :=
  { map := [(1, 0), (5, 1), (2, 2)]
    heap := fun j =>
      if j = 0 then some { value := 1, next := some 1, prev := none }
      else if j = 1 then some { value := 5, next := some 2, prev := some 0 }
      else if j = 2 then some { value := 2, next := none, prev := some 1 }
      else none
    head := some 0
    tail := some 2
    fresh := 3 }

theorem WFl_S3 : WFl S3 [0, 1, 2] :=
  { seg :=
      ChainSeg.cons none 0 { value := 1, next := some 1, prev := none } [1, 2]
        (some 2) none rfl rfl
        (ChainSeg.cons (some 0) 1
          { value := 5, next := some 2, prev := some 0 } [2] (some 2) none
          rfl rfl
          (ChainSeg.cons (some 1) 2
            { value := 2, next := none, prev := some 1 } [] (some 2) none
            rfl rfl (ChainSeg.nil (some 2) none)))
    nodup := by decide
    bound := by decide
    keys_nodup := by decide
    vals_perm := by decide }

theorem intoIter_next_none {it : IntoIter V} (h : it.custer = none) :
    it.next = none := by
  cases it with
  | mk c hp =>
      cases h
      rfl

/-! ## The claims -/

/-- Claim C1: for every sequence of values with pairwise distinct lookup keys,
each inserted once into the initially empty set, a full read-only iteration
yields exactly those values, in insertion order. -/
theorem C1_iter_yields_insertion_order (hash : V → Nat) (vs : List V)
    (hnd : (vs.map hash).Nodup) :
    (MutOrderedSet.extend hash (MutOrderedSet.new V) vs).iter = vs := by
  obtain ⟨l', _, hiter, _⟩ :=
    extend_fresh_spec hash vs (MutOrderedSet.new V) [] WFl_new
      (fun v _ => rfl) hnd
  rw [hiter]
  rfl

theorem C1_iter_yields_insertion_order_witness :
    ((List.map idHash [16, 1, 13, 12]).Nodup) ∧
    (MutOrderedSet.extend idHash (MutOrderedSet.new Nat) [16, 1, 13, 12]).iter
      = [16, 1, 13, 12] :=
  ⟨by decide, C1_iter_yields_insertion_order idHash [16, 1, 13, 12] (by decide)⟩

/-- Claim C2: inserting a value whose lookup key is already in the index
overwrites the stored value of the existing node in place and returns that
node; the chain of node ids (hence every element's position) is unchanged, the
index is unchanged, every other node is untouched, and iteration afterwards
differs only in the overwritten slot. -/
theorem C2_insert_existing_updates_in_place (hash : V → Nat)
    {s : MutOrderedSet V} {l : List Nat} {v : V} {curr : Nat} {n : Node V}
    (hw : WFl s l) (hkey : alistGet s.map (hash v) = some curr)
    (hn : s.heap curr = some n) :
    (MutOrderedSet.insert hash s v).2 = curr ∧
    (MutOrderedSet.insert hash s v).1.heap curr =
      some { n with value := v } ∧
    (MutOrderedSet.insert hash s v).1.map = s.map ∧
    (MutOrderedSet.insert hash s v).1.chain = s.chain ∧
    (∀ j, j ≠ curr → (MutOrderedSet.insert hash s v).1.heap j = s.heap j) ∧
    (MutOrderedSet.insert hash s v).1.iter = s.iter.set (l.indexOf curr) v := by
  obtain ⟨heq, hwf⟩ := insert_spec_mem hash hw hkey hn
  rw [heq]
  refine ⟨rfl, hupd_same, rfl, ?_, ?_, ?_⟩
  · rw [hwf.chain_eq, hw.chain_eq]
  · intro j hj
    show hupd s.heap curr { n with value := v } j = s.heap j
    exact hupd_other hj
  · rw [hwf.iter_eq, hw.iter_eq]
    exact valuesOf_update_value hw.nodup (hw.mem_of_get hkey) hn
      hw.seg.allSome v

theorem C2_insert_existing_updates_in_place_witness :
    alistGet S3.map (idHash 5) = some 1 ∧
    (MutOrderedSet.insert idHash S3 5).2 = 1 ∧
    (MutOrderedSet.insert idHash S3 5).1.chain = S3.chain ∧
    (MutOrderedSet.insert idHash S3 5).1.iter =
      S3.iter.set (List.indexOf 1 [0, 1, 2]) 5 := by
  have h := C2_insert_existing_updates_in_place idHash WFl_S3
    (show alistGet S3.map (idHash 5) = some 1 from rfl)
    (show S3.heap 1 = some { value := 5, next := some 2, prev := some 0 }
      from rfl)
  exact ⟨rfl, h.1, h.2.2.2.1, h.2.2.2.2.2⟩

/-- Claim C3: two distinct values with the same digest share one node: after
inserting the first (fresh key) and then the second, the second insert returns
the first value's node, the chain and the index are unchanged by it, the
shared node now stores the second value; removing either value is the very
same operation, it succeeds, deletes the shared index entry, and a subsequent
remove of the other value returns false. -/
theorem C3_colliding_values_share_a_node (hash : V → Nat)
    {s : MutOrderedSet V} {l : List Nat} {v1 v2 : V} (hw : WFl s l)
    (hcol : hash v1 = hash v2) (_hne : v1 ≠ v2)
    (habs : alistGet s.map (hash v1) = none) :
    (MutOrderedSet.insert hash (MutOrderedSet.insert hash s v1).1 v2).2 =
      (MutOrderedSet.insert hash s v1).2 ∧
    (MutOrderedSet.insert hash (MutOrderedSet.insert hash s v1).1 v2).1.chain =
      (MutOrderedSet.insert hash s v1).1.chain ∧
    (MutOrderedSet.insert hash (MutOrderedSet.insert hash s v1).1 v2).1.map =
      (MutOrderedSet.insert hash s v1).1.map ∧
    (∃ n, (MutOrderedSet.insert hash (MutOrderedSet.insert hash s v1).1
          v2).1.heap (MutOrderedSet.insert hash s v1).2 = some n ∧
        n.value = v2) ∧
    MutOrderedSet.remove hash
        (MutOrderedSet.insert hash (MutOrderedSet.insert hash s v1).1 v2).1 v1 =
      MutOrderedSet.remove hash
        (MutOrderedSet.insert hash (MutOrderedSet.insert hash s v1).1 v2).1
        v2 ∧
    (MutOrderedSet.remove hash
        (MutOrderedSet.insert hash (MutOrderedSet.insert hash s v1).1 v2).1
        v1).1 = true ∧
    alistGet (MutOrderedSet.remove hash
        (MutOrderedSet.insert hash (MutOrderedSet.insert hash s v1).1 v2).1
        v1).2.map (hash v2) = none ∧
    (MutOrderedSet.remove hash
        (MutOrderedSet.remove hash
          (MutOrderedSet.insert hash (MutOrderedSet.insert hash s v1).1 v2).1
          v1).2 v2).1 = false := by
  obtain ⟨hj, hmap1, hfr1, hwf1, hvals1⟩ := insert_spec_new hash hw habs
  have hkey2 : alistGet (MutOrderedSet.insert hash s v1).1.map (hash v2) =
      some s.fresh := by
    rw [hmap1, ← hcol]
    exact alistGet_append_of_none habs
  obtain ⟨n1, hn1⟩ := hwf1.heap_some (hwf1.mem_of_get hkey2)
  obtain ⟨heq2, hwf2⟩ := insert_spec_mem hash hwf1 hkey2 hn1
  have hkey1 : alistGet (MutOrderedSet.insert hash
      (MutOrderedSet.insert hash s v1).1 v2).1.map (hash v1) = some s.fresh := by
    rw [heq2]
    show alistGet (MutOrderedSet.insert hash s v1).1.map (hash v1) = some s.fresh
    rw [hcol]
    exact hkey2
  have hwf2' : WFl (MutOrderedSet.insert hash
      (MutOrderedSet.insert hash s v1).1 v2).1 (l ++ s.fresh :: []) := by
    rw [heq2]
    exact hwf2
  obtain ⟨htrue, _, _, _, _, hafter, _⟩ := remove_spec_mem hash hwf2' hkey1
  refine ⟨?_, ?_, ?_, ?_, ?_, htrue, ?_, ?_⟩
  · rw [heq2, hj]
  · rw [heq2]
    exact hwf2.chain_eq.trans hwf1.chain_eq.symm
  · rw [heq2]
  · rw [heq2, hj]
    exact ⟨{ n1 with value := v2 }, hupd_same, rfl⟩
  · simp only [MutOrderedSet.remove, MutOrderedSet.get_key, hcol]
  · rw [← hcol]
    exact hafter
  · refine remove_fst_false hash ?_
    rw [← hcol]
    exact hafter

theorem C3_colliding_values_share_a_node_witness :
    modHash 1 = modHash 5 ∧ (1 : Nat) ≠ 5 ∧
    (MutOrderedSet.remove modHash
      (MutOrderedSet.insert modHash
        (MutOrderedSet.insert modHash (MutOrderedSet.new Nat) 1).1 5).1
      1).1 = true ∧
    (MutOrderedSet.remove modHash
      (MutOrderedSet.remove modHash
        (MutOrderedSet.insert modHash
          (MutOrderedSet.insert modHash (MutOrderedSet.new Nat) 1).1 5).1
        1).2 5).1 = false := by
  have h := C3_colliding_values_share_a_node modHash WFl_new
    (show modHash 1 = modHash 5 from by decide)
    (show (1 : Nat) ≠ 5 from by decide) (show _ = none from rfl)
  exact ⟨by decide, by decide, h.2.2.2.2.2.1, h.2.2.2.2.2.2.2⟩

/-- Claim C4: removing a value whose lookup key is absent from the index
returns false and leaves the set (state, length, iteration) unchanged. -/
theorem C4_remove_absent_is_noop (hash : V → Nat) (s : MutOrderedSet V)
    (v : V) (hkey : alistGet s.map (hash v) = none) :
    MutOrderedSet.remove hash s v = (false, s) ∧
    (MutOrderedSet.remove hash s v).1 = false ∧
    (MutOrderedSet.remove hash s v).2.len = s.len ∧
    (MutOrderedSet.remove hash s v).2.iter = s.iter := by
  have h := remove_spec_absent hash hkey
  rw [h]
  exact ⟨rfl, rfl, rfl, rfl⟩

theorem C4_remove_absent_is_noop_witness :
    alistGet S3.map (idHash 9) = none ∧
    MutOrderedSet.remove idHash S3 9 = (false, S3) :=
  ⟨rfl, (C4_remove_absent_is_noop idHash S3 9 rfl).1⟩

/-- Claim C5: removing a present value and re-inserting it appends it at the
tail: the final full iteration is the post-removal iteration with the value
appended, so the value is the last element yielded. -/
theorem C5_remove_then_insert_moves_to_tail (hash : V → Nat)
    {s : MutOrderedSet V} {l : List Nat} {v : V} {curr : Nat} (hw : WFl s l)
    (hkey : alistGet s.map (hash v) = some curr) :
    (MutOrderedSet.insert hash (MutOrderedSet.remove hash s v).2 v).1.iter =
      (MutOrderedSet.remove hash s v).2.iter ++ [v] ∧
    (MutOrderedSet.insert hash
      (MutOrderedSet.remove hash s v).2 v).1.iter.getLast? = some v := by
  obtain ⟨A, B, hsplit⟩ := List.append_of_mem (hw.mem_of_get hkey)
  subst hsplit
  obtain ⟨_, hwf', _, _, _, hkey', _⟩ := remove_spec_mem hash hw hkey
  obtain ⟨_, _, _, hwf2, hvals2⟩ := insert_spec_new hash hwf' hkey'
  have hiter : (MutOrderedSet.insert hash
      (MutOrderedSet.remove hash s v).2 v).1.iter =
      (MutOrderedSet.remove hash s v).2.iter ++ [v] := by
    rw [hwf2.iter_eq, hvals2, hwf'.iter_eq]
  refine ⟨hiter, ?_⟩
  rw [hiter]
  exact List.getLast?_concat _

theorem C5_remove_then_insert_moves_to_tail_witness :
    alistGet S3.map (idHash 5) = some 1 ∧
    (MutOrderedSet.insert idHash
      (MutOrderedSet.remove idHash S3 5).2 5).1.iter.getLast? = some 5 :=
  ⟨rfl, (C5_remove_then_insert_moves_to_tail idHash WFl_S3
    (show alistGet S3.map (idHash 5) = some 1 from rfl)).2⟩

/-- Claim C6: on every state reachable by insert/remove/extend from the empty
set, `len` equals the number of elements produced by a full read-only
iteration. -/
theorem C6_len_eq_iteration_count (hash : V → Nat) (s : MutOrderedSet V)
    (hr : Reachable hash s) : s.len = s.iter.length := by
  obtain ⟨l, hw⟩ := reachable_wf hr
  rw [hw.len_eq, hw.iter_eq, valuesOf_length hw.seg.allSome]

theorem C6_len_eq_iteration_count_witness :
    (MutOrderedSet.extend idHash (MutOrderedSet.new Nat) [16, 1, 13]).len =
      (MutOrderedSet.extend idHash
        (MutOrderedSet.new Nat) [16, 1, 13]).iter.length :=
  C6_len_eq_iteration_count idHash _
    (Reachable.ext (MutOrderedSet.new Nat) [16, 1, 13] Reachable.base)

/-- Claim C7: every reachable state is strictly doubly linked: `prev`/`next`
links on the chain are mutually inverse, the head node has no `prev`, the tail
node has no `next`, and head/tail are null exactly when the set is empty. -/
theorem C7_reachable_strictly_doubly_linked (hash : V → Nat)
    (s : MutOrderedSet V) (hr : Reachable hash s) : StrictlyLinked s := by
  obtain ⟨l, hw⟩ := reachable_wf hr
  exact wfl_strictlyLinked hw

theorem C7_reachable_strictly_doubly_linked_witness :
    StrictlyLinked (MutOrderedSet.extend idHash
      (MutOrderedSet.new Nat) [16, 1, 13]) :=
  C7_reachable_strictly_doubly_linked idHash _
    (Reachable.ext (MutOrderedSet.new Nat) [16, 1, 13] Reachable.base)

/-- Claim C8: the consuming iterator yields exactly the set's elements, in
head-to-tail order (the read-only iteration order), and once drained its
cursor is null and `next` yields nothing more. -/
theorem C8_into_iter_drains_head_to_tail {s : MutOrderedSet V}
    {l : List Nat} (hw : WFl s l) :
    (s.into_iter.consume s.fresh).1 = s.iter ∧
    (s.into_iter.consume s.fresh).2.custer = none ∧
    (s.into_iter.consume s.fresh).2.next = none := by
  obtain ⟨h1, h2⟩ := consume_spec l s.heap none s.head s.tail hw.seg
    hw.nodup s.fresh hw.length_le_fresh
  refine ⟨?_, h2, intoIter_next_none h2⟩
  show (IntoIter.consume { custer := s.head, heap := s.heap } s.fresh).1 =
    s.iter
  rw [h1, hw.iter_eq]

theorem C8_into_iter_drains_head_to_tail_witness :
    (S3.into_iter.consume S3.fresh).1 = S3.iter ∧
    (S3.into_iter.consume S3.fresh).2.custer = none := by
  have h := C8_into_iter_drains_head_to_tail WFl_S3
  exact ⟨h.1, h.2.1⟩

/-- Claim C9: `extend` is exactly the fold of `insert` over the input
sequence, in its order. -/
theorem C9_extend_is_repeated_insert (hash : V → Nat) (s : MutOrderedSet V)
    (vs : List V) :
    MutOrderedSet.extend hash s vs =
      vs.foldl (fun t w => (MutOrderedSet.insert hash t w).1) s := by
  induction vs generalizing s with
  | nil => rfl
  | cons v vs ih => exact ih (MutOrderedSet.insert hash s v).1

/-- Claim C10: the index key is computed at insertion time and never
recomputed: after mutating a stored value through an `iter_mut` reference so
that its digest changes (the new digest being absent from the index), remove
with the new value returns false and changes nothing, while remove with the
original value returns true, frees the mutated node and deletes the index
entry. -/
theorem C10_index_key_is_stale_after_mutation (hash : V → Nat)
    {s : MutOrderedSet V} {l : List Nat} {v v' : V} {curr : Nat} {n : Node V}
    (hw : WFl s l) (hkey : alistGet s.map (hash v) = some curr)
    (hn : s.heap curr = some n) (_hval : n.value = v)
    (_hne : hash v' ≠ hash v)
    (habs : alistGet s.map (hash v') = none) :
    curr ∈ s.iter_mut ∧
    MutOrderedSet.remove hash (s.writeRef curr v') v' =
      (false, s.writeRef curr v') ∧
    (MutOrderedSet.remove hash (s.writeRef curr v') v).1 = true ∧
    (MutOrderedSet.remove hash (s.writeRef curr v') v).2.heap curr = none ∧
    alistGet (MutOrderedSet.remove hash (s.writeRef curr v') v).2.map
      (hash v) = none := by
  obtain ⟨hwfW, hmapW, hheapW, hotherW, hfreshW⟩ := writeRef_spec hw hn v'
  have hmem : curr ∈ l := hw.mem_of_get hkey
  have habs' : alistGet (s.writeRef curr v').map (hash v') = none := by
    rw [hmapW]
    exact habs
  have hkey' : alistGet (s.writeRef curr v').map (hash v) = some curr := by
    rw [hmapW]
    exact hkey
  obtain ⟨A, B, hsplit⟩ := List.append_of_mem hmem
  subst hsplit
  obtain ⟨htrue, _, _, _, hfreed, hafter, _⟩ := remove_spec_mem hash hwfW hkey'
  refine ⟨?_, remove_spec_absent hash habs', htrue, hfreed, hafter⟩
  show curr ∈ s.chain
  rw [hw.chain_eq]
  exact hmem

theorem C10_index_key_is_stale_after_mutation_witness :
    (1 : Nat) ∈ S3.iter_mut ∧
    MutOrderedSet.remove idHash (S3.writeRef 1 7) 7 =
      (false, S3.writeRef 1 7) ∧
    (MutOrderedSet.remove idHash (S3.writeRef 1 7) 5).1 = true ∧
    alistGet (MutOrderedSet.remove idHash
      (S3.writeRef 1 7) 5).2.map (idHash 5) = none := by
  have h := C10_index_key_is_stale_after_mutation idHash WFl_S3
    (show alistGet S3.map (idHash 5) = some 1 from rfl)
    (show S3.heap 1 = some { value := 5, next := some 2, prev := some 0 }
      from rfl)
    rfl (show idHash 7 ≠ idHash 5 from by decide)
    (show alistGet S3.map (idHash 7) = none from rfl)
  exact ⟨h.1, h.2.1, h.2.2.1, h.2.2.2.2⟩

end MutableSet
